import Mathlib

/-!
# QCOS inference probe: drift tracker, policy selector and report emitter

Shallow embedding of `ai_core/cpp/qcos_inference.cpp` (and of its duplicate
`ai_core/cpp/qcos_inference_stub.cpp`, which has the same function bodies).

The global `std::vector<float> v_score_history` is threaded explicitly as a
`List`.  `calculate_semantic_drift` is written once, over any carrier `F` that
provides the arithmetic the C++ body uses (`0`, `+`, `-`, `*`, `/`, the
conversion of `size()` to `F`, and `sqrt`).  It is instantiated

* at `F32`, a model of IEEE 754 binary32 with round-to-nearest-even (what the
  C++ `float` is on the usual targets), and
* at `ℝ`, for the statements that read the arithmetic over exact reals.

The text written by `std::ostream::operator<<` for a `float` or a `double` is
modelled by `showG` (the `%g` conversion with precision 6).
-/

set_option autoImplicit false

namespace QCOS

/-! ## The drift tracker -/

/-- The capacity of the history, `const int MAX_HISTORY = 50;`. -/
def MAX_HISTORY : Nat := 50

/-- The function `float calculate_semantic_drift(float current_v)`, with the global history
passed in and returned: the result is `(history after the call, returned drift)`.

* `push_back(current_v)` is `++ [current_v]`;
* `erase(begin())` is `List.tail`;
* `std::accumulate(begin, end, 0.0f)` is a left fold of `+` from `0`;
* the range-`for` accumulating `sq_sum` is a left fold from `0`;
* `size()` in `sum / size()` and `sq_sum / size()` is converted to `F`. -/
def calculate_semantic_drift {F : Type} [Zero F] [Add F] [Sub F] [Mul F] [Div F] [NatCast F]
    (sqrt : F → F) (v_score_history : List F) (current_v : F) : List F × F :=
  let pushed := v_score_history ++ [current_v]
  let hist := if pushed.length > MAX_HISTORY then pushed.tail else pushed
  if hist.length < 2 then (hist, 0)
  else
    let sum := hist.foldl (fun acc v => acc + v) 0
    let mean := sum / (hist.length : F)
    let sq_sum := hist.foldl (fun acc v => acc + (v - mean) * (v - mean)) 0
    (hist, sqrt (sq_sum / (hist.length : F)))

/-- History left by calling `calculate_semantic_drift` once per element of
`samples`, in order, starting from the history `h`. -/
def recordAll {F : Type} [Zero F] [Add F] [Sub F] [Mul F] [Div F] [NatCast F]
    (sqrt : F → F) (h : List F) (samples : List F) : List F :=
  samples.foldl (fun hist s => (calculate_semantic_drift sqrt hist s).1) h

/-- Drift returned by the last of the calls `calculate_semantic_drift s`, `s`
ranging over `samples ++ [last]`, starting from the history `h`. -/
def driftAfter {F : Type} [Zero F] [Add F] [Sub F] [Mul F] [Div F] [NatCast F]
    (sqrt : F → F) (h : List F) (samples : List F) (last : F) : F :=
  (calculate_semantic_drift sqrt (recordAll sqrt h samples) last).2

/-- The population standard deviation as the specification words it:
`mean = sum(history)/count`, then `sqrt( sum((x − mean)^2) / count )`. -/
def populationStdDev {F : Type} [Field F] (sqrt : F → F) (history : List F) : F :=
  let mean := history.sum / (history.length : F)
  sqrt ((history.map (fun x => (x - mean) ^ 2)).sum / (history.length : F))

/-- Running sum from `0`, left to right, as `std::accumulate(begin, end, 0.0f)`
forms it. -/
def total {F : Type} [Zero F] [Add F] (l : List F) : F := l.foldl (fun acc v => acc + v) 0

/-- The formula of the specification, `sqrt( sum((x − mean)^2) / count )` with
`mean = sum(history)/count`, evaluated in the arithmetic of the carrier: the
sums are running sums from the left, every operation is the carrier's. -/
def stdDevFormula {F : Type} [Zero F] [Add F] [Sub F] [Mul F] [Div F] [NatCast F]
    (sqrt : F → F) (history : List F) : F :=
  let count : F := (history.length : F)
  let mean := total history / count
  sqrt (total (history.map (fun x => (x - mean) * (x - mean))) / count)

/-! ## A model of the C++ floating-point types

`float` is IEEE 754 binary32 and `double` is binary64; every operation is the
exact result rounded to nearest, ties to even (no extended intermediate
precision, no fused multiply-add).  Both formats share the datum type `Fp`;
the format only enters through the rounding parameters. -/

/-- IEEE 754 binary floating-point datum: NaN, a signed infinity, or the
finite number `(-1)^neg * m * 2^e` (signed zeros are `m = 0`). -/
inductive Fp where
  | nan : Fp
  | inf (neg : Bool) : Fp
  | fin (neg : Bool) (m : Nat) (e : Int) : Fp
deriving DecidableEq

namespace Fp

/-- Number of binary digits of `n`, counted by halving at most `fuel` times. -/
def bitLengthAux : Nat → Nat → Nat
  | 0, _ => 0
  | fuel + 1, n => if n = 0 then 0 else bitLengthAux fuel (n / 2) + 1

/-- Number of binary digits of `n` (0 for 0). -/
def bitLength (n : Nat) : Nat := bitLengthAux n n

/-- Round half to even of `n / d` to an integer. -/
def divRoundEven (n d : Nat) : Nat :=
  let q := n / d
  let r := n % d
  if 2 * r < d then q else if d < 2 * r then q + 1 else if q % 2 = 0 then q else q + 1

/-- Numerator and denominator of `num / den / 2^e`. -/
def scaled (num den : Nat) (e : Int) : Nat × Nat :=
  if 0 ≤ e then (num, den * 2 ^ e.toNat) else (num * 2 ^ (-e).toNat, den)

/-- Correct rounding (to nearest, ties to even) of the rational `num / den`
(`den > 0`) with sign `neg` into the format with `p` significand bits whose
smallest quantum is `2^emin` and whose largest quantum is `2^emax`. -/
def round (p : Nat) (emin emax : Int) (neg : Bool) (num den : Nat) : Fp :=
  if num = 0 then fin neg 0 emin
  else
    let l : Int := (bitLength num : Int) - (bitLength den : Int)
    let e0 : Int := max (l - (p : Int)) emin
    let s0 := scaled num den e0
    let e1 : Int := if 2 ^ p ≤ s0.1 / s0.2 then e0 + 1 else e0
    let s1 := scaled num den e1
    let m := divRoundEven s1.1 s1.2
    let me : Nat × Int := if m = 2 ^ p then (2 ^ (p - 1), e1 + 1) else (m, e1)
    if emax < me.2 then inf neg else fin neg me.1 me.2

/-- Correct rounding of the dyadic number `m * 2^e`. -/
def roundDyadic (p : Nat) (emin emax : Int) (neg : Bool) (m : Nat) (e : Int) : Fp :=
  if 0 ≤ e then round p emin emax neg (m * 2 ^ e.toNat) 1
  else round p emin emax neg m (2 ^ (-e).toNat)

/-- The integer `(-1)^neg * m * 2^(e - e0)`, for `e0 ≤ e`. -/
def aligned (neg : Bool) (m : Nat) (e e0 : Int) : Int :=
  let a : Int := ((m * 2 ^ (e - e0).toNat : Nat) : Int)
  if neg then -a else a

/-- Sign change (exact). -/
def neg : Fp → Fp
  | nan => nan
  | inf s => inf (!s)
  | fin s m e => fin (!s) m e

/-- Addition: the exact sum, rounded.  An exact zero sum is `+0` unless both
terms are `-0`. -/
def add (p : Nat) (emin emax : Int) : Fp → Fp → Fp
  | nan, _ => nan
  | _, nan => nan
  | inf s, inf t => if s = t then inf s else nan
  | inf s, fin _ _ _ => inf s
  | fin _ _ _, inf t => inf t
  | fin s1 m1 e1, fin s2 m2 e2 =>
    let e := min e1 e2
    let c := aligned s1 m1 e1 e + aligned s2 m2 e2 e
    if c = 0 then fin (s1 && s2) 0 emin
    else roundDyadic p emin emax (decide (c < 0)) c.natAbs e

/-- Subtraction, `a + (-b)`. -/
def sub (p : Nat) (emin emax : Int) (a b : Fp) : Fp := add p emin emax a (neg b)

/-- Multiplication: the exact product, rounded; `∞ * 0` is NaN. -/
def mul (p : Nat) (emin emax : Int) : Fp → Fp → Fp
  | nan, _ => nan
  | _, nan => nan
  | inf s, inf t => inf (xor s t)
  | inf s, fin t m _ => if m = 0 then nan else inf (xor s t)
  | fin s m _, inf t => if m = 0 then nan else inf (xor s t)
  | fin s1 m1 e1, fin s2 m2 e2 => roundDyadic p emin emax (xor s1 s2) (m1 * m2) (e1 + e2)

/-- Division: the exact quotient, rounded; `0/0` and `∞/∞` are NaN, `x/0` is
an infinity. -/
def div (p : Nat) (emin emax : Int) : Fp → Fp → Fp
  | nan, _ => nan
  | _, nan => nan
  | inf _, inf _ => nan
  | inf s, fin t _ _ => inf (xor s t)
  | fin s _ _, inf t => fin (xor s t) 0 emin
  | fin s1 m1 e1, fin s2 m2 e2 =>
    if m2 = 0 then (if m1 = 0 then nan else inf (xor s1 s2))
    else
      let d := e1 - e2
      if 0 ≤ d then round p emin emax (xor s1 s2) (m1 * 2 ^ d.toNat) m2
      else round p emin emax (xor s1 s2) m1 (m2 * 2 ^ (-d).toNat)

/-- Bitwise integer square root: the bits `i-1, …, 0` are tried in turn. -/
def isqrtAux : Nat → Nat → Nat → Nat
  | 0, _, r => r
  | i + 1, n, r => isqrtAux i n (if (r + 2 ^ i) * (r + 2 ^ i) ≤ n then r + 2 ^ i else r)

/-- Integer square root, `⌊√n⌋`. -/
def isqrt (n : Nat) : Nat := isqrtAux (bitLength n / 2 + 1) n 0

/-- Square root, correctly rounded: the argument is scaled to an integer `a`
of at least `2p + 4` bits, and `⌊√a⌋` with a sticky bit for the remainder is
rounded.  Negative arguments give NaN, `√(±0) = ±0`. -/
def sqrt (p : Nat) (emin emax : Int) : Fp → Fp
  | nan => nan
  | inf s => if s then nan else inf false
  | fin s m e =>
    if m = 0 then fin s 0 emin
    else if s then nan
    else
      let d : Int := e - 2 * ((p : Int) + 2)
      let t : Int := (d - d % 2) / 2
      let a : Nat := m * 2 ^ (e - 2 * t).toNat
      let r := isqrt a
      let sticky : Nat := if r * r = a then 0 else 1
      roundDyadic p emin emax false (2 * r + sticky) (t - 1)

/-- IEEE `<` (false when either side is NaN). -/
def lt : Fp → Fp → Bool
  | nan, _ => false
  | _, nan => false
  | inf s, inf t => s && !t
  | inf s, fin _ _ _ => s
  | fin _ _ _, inf t => !t
  | fin s1 m1 e1, fin s2 m2 e2 =>
    decide (aligned s1 m1 e1 (min e1 e2) < aligned s2 m2 e2 (min e1 e2))

/-- Exact value of a finite datum, `(-1)^neg * m * 2^e`; `0` for NaN and the
infinities, which `Fp.isFinite` tells apart. -/
def toRat : Fp → ℚ
  | nan => 0
  | inf _ => 0
  | fin s m e => (if s then -1 else 1) * (m : ℚ) * (2 : ℚ) ^ e

/-- Neither NaN nor an infinity. -/
def isFinite : Fp → Bool
  | fin _ _ _ => true
  | _ => false

/-- The normalised form of the format with `p` significand bits and quanta
`2^emin … 2^emax`: the significand fills its `p` bits unless the quantum is the
smallest one. -/
def Canonical (p : Nat) (emin emax : Int) (m : Nat) (e : Int) : Prop :=
  m < 2 ^ p ∧ emin ≤ e ∧ e ≤ emax ∧ (e = emin ∨ 2 ^ (p - 1) ≤ m)

end Fp

/-- The C++ `float`: binary32, 24 significand bits, quanta `2^-149 … 2^104`. -/
def F32 : Type := Fp

/-- The C++ `double`: binary64, 53 significand bits, quanta `2^-1074 … 2^971`. -/
def F64 : Type := Fp

namespace F32

instance : DecidableEq F32 := inferInstanceAs (DecidableEq Fp)

/-- The `float` nearest to the decimal `num / den`: a literal such as `0.75f`
is `ofDec 3 4`. -/
def ofDec (num den : Nat) : F32 := Fp.round 24 (-149) 104 false num den

instance : Zero F32 := ⟨Fp.fin false 0 (-149)⟩
instance : Add F32 := ⟨Fp.add 24 (-149) 104⟩
instance : Sub F32 := ⟨Fp.sub 24 (-149) 104⟩
instance : Mul F32 := ⟨Fp.mul 24 (-149) 104⟩
instance : Div F32 := ⟨Fp.div 24 (-149) 104⟩

/-- Conversion of a non-negative integer (`size()`, `rand()`, `RAND_MAX`). -/
instance : NatCast F32 := ⟨fun n => Fp.roundDyadic 24 (-149) 104 false n 0⟩

/-- The call `std::sqrt(float)`. -/
def sqrt (x : F32) : F32 := Fp.sqrt 24 (-149) 104 x

/-- Promotion `float → double`; it is exact, the datum is kept as it is. -/
def toDouble (x : F32) : F64 := x

/-- A datum of the binary32 format: NaN, an infinity, or `m * 2^e` with
`m < 2^24`, `-149 ≤ e ≤ 104`, and `2^23 ≤ m` unless `e = -149`. -/
def isBinary32 : F32 → Bool
  | .fin _ m e => decide (m < 2 ^ 24 ∧ -149 ≤ e ∧ e ≤ 104 ∧ (e = -149 ∨ 2 ^ 23 ≤ m))
  | _ => true

/-- The rational `q` is the value of a finite `float`. -/
def Representable (q : ℚ) : Prop :=
  ∃ x : F32, F32.isBinary32 x = true ∧ Fp.isFinite x = true ∧ Fp.toRat x = q

end F32

namespace F64

instance : DecidableEq F64 := inferInstanceAs (DecidableEq Fp)

/-- The `double` nearest to the decimal `num / den`: the literal `0.85` is
`ofDec 17 20`. -/
def ofDec (num den : Nat) : F64 := Fp.round 53 (-1074) 971 false num den

/-- Conversion of a non-negative integer to `double`. -/
def ofNat (n : Nat) : F64 := Fp.roundDyadic 53 (-1074) 971 false n 0

end F64

/-! ## The text the stream writes for a floating-point value -/

/-- The function `int get_entropy_availability()`.  `entropy` is the `double` returned by
`std::random_device::entropy()`; the `0` it is compared with is converted to
`double`, and `a > b` is `b < a`. -/
def get_entropy_availability (entropy : F64) : Int :=
  if Fp.lt (F64.ofNat 0) entropy then 2048 else 256

/-- The statement
`std::string policy = (v_score > 0.85) ? "ACT_OPTIMIZE" : "HEURISTIC_SEARCH";`.
The `float` is promoted to `double` and compared with the `double` literal. -/
def policy (v_score : F32) : String :=
  if Fp.lt (F64.ofDec 17 20) (F32.toDouble v_score) then "ACT_OPTIMIZE" else "HEURISTIC_SEARCH"

/-- The expression
`0.75f + (static_cast<float>(rand()) / (static_cast<float>(RAND_MAX/0.2f)))`,
where `r` is the value `rand()` returned. -/
def simulated_v_score (RAND_MAX r : Nat) : F32 :=
  F32.ofDec 3 4 + ((r : F32) / ((RAND_MAX : F32) / F32.ofDec 1 5))

end QCOS


/-! ## The history is a sliding window of the last 50 samples -/

namespace QCOS

section History

variable {F : Type} [Zero F] [Add F] [Sub F] [Mul F] [Div F] [NatCast F]

/-- The history after one call, whatever the arithmetic does. -/
theorem history_after_call (sqrt : F → F) (h : List F) (v : F) :
    (calculate_semantic_drift sqrt h v).1 =
      if (h ++ [v]).length > MAX_HISTORY then (h ++ [v]).tail else h ++ [v] := by
  unfold calculate_semantic_drift
  dsimp only
  split <;> split <;> rfl

/-- One call on a history within capacity keeps the last 50 of `h ++ [v]`. -/
theorem history_after_call_drop (sqrt : F → F) (h : List F) (v : F)
    (hlen : h.length ≤ MAX_HISTORY) :
    (calculate_semantic_drift sqrt h v).1 = (h ++ [v]).drop ((h ++ [v]).length - MAX_HISTORY) := by
  rw [history_after_call]
  have hl : (h ++ [v]).length = h.length + 1 := by simp
  by_cases hc : (h ++ [v]).length > MAX_HISTORY
  · have h1 : (h ++ [v]).length - MAX_HISTORY = 1 := by omega
    rw [if_pos hc, h1, List.drop_one]
  · have h0 : (h ++ [v]).length - MAX_HISTORY = 0 := by omega
    rw [if_neg hc, h0, List.drop_zero]

/-- Recording `samples` on top of a history within capacity leaves the last
50 elements of `h ++ samples`. -/
theorem recordAll_eq_drop (sqrt : F → F) (samples : List F) :
    ∀ h : List F, h.length ≤ MAX_HISTORY →
      recordAll sqrt h samples = (h ++ samples).drop ((h ++ samples).length - MAX_HISTORY) := by
  induction samples with
  | nil =>
    intro h hlen
    have h0 : (h ++ ([] : List F)).length - MAX_HISTORY = 0 := by simp; omega
    rw [h0]; simp [recordAll]
  | cons x xs ih =>
    intro h hlen
    have hstep := history_after_call_drop sqrt h x hlen
    have hl : (h ++ [x]).length = h.length + 1 := by simp
    have hlen2 : (calculate_semantic_drift sqrt h x).1.length ≤ MAX_HISTORY := by
      rw [hstep, List.length_drop]; omega
    have hrec : recordAll sqrt h (x :: xs) =
        recordAll sqrt (calculate_semantic_drift sqrt h x).1 xs := by
      simp [recordAll]
    rw [hrec, ih _ hlen2, hstep]
    have hk : (h ++ [x]).length - MAX_HISTORY ≤ (h ++ [x]).length := Nat.sub_le _ _
    have happ : List.drop ((h ++ [x]).length - MAX_HISTORY) (h ++ [x]) ++ xs =
        List.drop ((h ++ [x]).length - MAX_HISTORY) (h ++ x :: xs) := by
      have e : h ++ x :: xs = (h ++ [x]) ++ xs := by simp
      rw [e, List.drop_append_of_le_length hk]
    rw [happ, List.drop_drop, List.length_drop]
    congr 1
    simp only [List.length_append, List.length_cons, List.length_nil] at *
    unfold MAX_HISTORY at *
    omega

/-- C1: starting from an empty history, after `n ≥ 51` recorded samples the
history is exactly the last 50 of them, in recording order: it has 50 entries,
its `i`-th entry is sample number `n - 50 + i` (so sample number 0 is no
longer held), and its last entry is the newest sample. -/
theorem history_is_last_50 (sqrt : F → F) (samples : List F) (hn : 51 ≤ samples.length) :
    recordAll sqrt [] samples = samples.drop (samples.length - 50) ∧
    (recordAll sqrt [] samples).length = 50 ∧
    (∀ i, i < 50 → (recordAll sqrt [] samples)[i]? = samples[samples.length - 50 + i]?) ∧
    (recordAll sqrt [] samples).getLast? = samples.getLast? := by
  have hd : recordAll sqrt [] samples = samples.drop (samples.length - 50) := by
    have := recordAll_eq_drop sqrt samples [] (by simp)
    simpa [MAX_HISTORY] using this
  refine ⟨hd, ?_, ?_, ?_⟩
  · rw [hd, List.length_drop]; omega
  · intro i _
    rw [hd, List.getElem?_drop]
  · rw [hd]
    have hlt : samples.length - 50 < samples.length := by omega
    rw [List.getLast?_drop, if_neg (by omega)]

/-- C2: starting from an empty history, after the `k`-th call the history
holds `min k 50` samples, so never more than `MAX_HISTORY`. -/
theorem history_length_min (sqrt : F → F) (samples : List F) (k : Nat)
    (hk : k ≤ samples.length) :
    (recordAll sqrt [] (samples.take k)).length = min k 50 ∧
    (recordAll sqrt [] (samples.take k)).length ≤ MAX_HISTORY := by
  have hd := recordAll_eq_drop sqrt (samples.take k) [] (by simp)
  have hl : (samples.take k).length = k := by simp [hk]
  rw [hd]
  simp only [List.nil_append, List.length_drop, hl, MAX_HISTORY]
  omega

/-- A call on the empty history. -/
theorem call_on_empty (sqrt : F → F) (s : F) :
    calculate_semantic_drift sqrt [] s = ([s], 0) := by
  simp [calculate_semantic_drift, MAX_HISTORY]

/-- C5: the first call on an empty history returns `0` (the literal `0.0f`)
and leaves the history `[s]`, for every sample `s` and whatever the
arithmetic is. -/
theorem first_call_returns_zero (sqrt : F → F) (s : F) :
    calculate_semantic_drift sqrt [] s = ([s], 0) ∧
    (calculate_semantic_drift sqrt [] s).1.length < 2 :=
  ⟨call_on_empty sqrt s, by rw [call_on_empty]; simp⟩

end History

end QCOS

/-! ## The drift over exact arithmetic -/

namespace QCOS

section Exact

variable {F : Type} [Field F]

/-- The `std::accumulate` from `0` is the sum. -/
theorem foldl_add_eq_sum (l : List F) : l.foldl (fun acc v => acc + v) 0 = l.sum := by
  have key : ∀ (l : List F) (a : F), l.foldl (fun acc v => acc + v) a = a + l.sum := by
    intro l
    induction l with
    | nil => intro a; simp
    | cons x xs ih => intro a; simp [ih, add_assoc]
  simpa using key l 0

/-- The `sq_sum` loop is the sum of the squared deviations. -/
theorem foldl_sq_eq_sum (l : List F) (mean : F) :
    l.foldl (fun acc v => acc + (v - mean) * (v - mean)) 0 =
      (l.map (fun x => (x - mean) ^ 2)).sum := by
  have key : ∀ (l : List F) (a : F),
      l.foldl (fun acc v => acc + (v - mean) * (v - mean)) a =
        a + (l.map (fun x => (x - mean) ^ 2)).sum := by
    intro l
    induction l with
    | nil => intro a; simp
    | cons x xs ih => intro a; simp [ih, add_assoc, pow_two]
  simpa using key l 0

/-- The value returned by a call, in terms of the history it leaves. -/
theorem drift_eq (sqrt : F → F) (h : List F) (v : F) :
    (calculate_semantic_drift sqrt h v).2 =
      if (calculate_semantic_drift sqrt h v).1.length < 2 then 0
      else populationStdDev sqrt (calculate_semantic_drift sqrt h v).1 := by
  unfold calculate_semantic_drift populationStdDev
  simp only [foldl_add_eq_sum, foldl_sq_eq_sum]
  split <;> split <;> simp_all

/-- Every sample held after a call was held before it or is the new one. -/
theorem mem_history_after_call (sqrt : F → F) (h : List F) (v x : F)
    (hx : x ∈ (calculate_semantic_drift sqrt h v).1) : x ∈ h ++ [v] := by
  rw [history_after_call] at hx
  split at hx
  · exact List.mem_of_mem_tail hx
  · exact hx

/-- The new sample is held after the call. -/
theorem new_sample_mem_history (sqrt : F → F) (h : List F) (v : F) :
    v ∈ (calculate_semantic_drift sqrt h v).1 := by
  rw [history_after_call]
  split
  · cases h with
    | nil => simp [MAX_HISTORY] at *
    | cons a t => simp
  · simp

/-- Over a field, whenever the history holds `N ≥ 2` samples after the call,
the value returned is the population standard deviation of that history. -/
theorem drift_is_population_std_dev (sqrt : F → F) (h : List F) (v : F)
    (hN : 2 ≤ (calculate_semantic_drift sqrt h v).1.length) :
    (calculate_semantic_drift sqrt h v).2 =
      populationStdDev sqrt (calculate_semantic_drift sqrt h v).1 := by
  rw [drift_eq, if_neg (by omega)]

/-- The population standard deviation of a non-empty constant list is
`sqrt 0`. -/
theorem populationStdDev_const [CharZero F] (sqrt : F → F) (c : F) (l : List F)
    (hl : l ≠ []) (hc : ∀ x ∈ l, x = c) : populationStdDev sqrt l = sqrt 0 := by
  have hrep : l = List.replicate l.length c := List.eq_replicate_iff.mpr ⟨rfl, hc⟩
  have hlen : (l.length : F) ≠ 0 := by
    have : l.length ≠ 0 := fun h0 => hl (List.length_eq_zero.mp h0)
    exact_mod_cast this
  have hsum : l.sum = (l.length : F) * c := by
    conv_lhs => rw [hrep]
    simp
  have hmean : l.sum / (l.length : F) = c := by
    rw [hsum]; field_simp
  have hdev : (l.map (fun x => (x - c) ^ 2)).sum = 0 := by
    apply List.sum_eq_zero
    intro y hy
    obtain ⟨x, hx, rfl⟩ := List.mem_map.mp hy
    rw [hc x hx]; simp
  unfold populationStdDev
  simp only [hmean, hdev, zero_div]

end Exact

section Real

/-- Every entry of the history left by `recordAll` from the empty history is
one of the recorded samples. -/
theorem mem_recordAll (sqrt : ℝ → ℝ) (samples : List ℝ) (x : ℝ)
    (hx : x ∈ recordAll sqrt [] samples) : x ∈ samples := by
  rw [recordAll_eq_drop sqrt samples [] (by simp)] at hx
  exact List.mem_of_mem_drop hx

/-- Over exact real arithmetic, when the same value `c` has been recorded `n`
times into an empty history, recording it once more returns exactly `0`, for
every `n`. -/
theorem constant_samples_zero_drift_real (c : ℝ) (n : ℕ) :
    driftAfter Real.sqrt [] (List.replicate n c) c = 0 := by
  unfold driftAfter
  rw [drift_eq]
  split
  · rfl
  · rw [populationStdDev_const Real.sqrt c _ _ _, Real.sqrt_zero]
    · exact List.ne_nil_of_mem (new_sample_mem_history Real.sqrt _ c)
    · intro x hx
      have hx2 := mem_history_after_call Real.sqrt _ c x hx
      rcases List.mem_append.mp hx2 with h1 | h1
      · exact List.eq_of_mem_replicate (mem_recordAll Real.sqrt _ x h1)
      · simpa using h1

/-- Shifting the centre of a sum of squares. -/
theorem sum_sq_shift (l : List ℝ) (a c : ℝ) :
    (l.map (fun x => (x - c) ^ 2)).sum =
      (l.map (fun x => (x - a) ^ 2)).sum + 2 * (a - c) * (l.sum - l.length * a)
        + l.length * (a - c) ^ 2 := by
  induction l with
  | nil => simp
  | cons x xs ih =>
    simp only [List.map_cons, List.sum_cons, List.length_cons, Nat.cast_add, Nat.cast_one, ih]
    ring

/-- The squared deviations from the mean sum to no more than the squared
deviations from any other centre. -/
theorem sum_sq_mean_le (l : List ℝ) (c : ℝ) (hl : l ≠ []) :
    (l.map (fun x => (x - l.sum / l.length) ^ 2)).sum ≤ (l.map (fun x => (x - c) ^ 2)).sum := by
  have hlen : (l.length : ℝ) ≠ 0 := by
    have : l.length ≠ 0 := fun h0 => hl (List.length_eq_zero.mp h0)
    exact_mod_cast this
  have hz : l.sum - l.length * (l.sum / l.length) = 0 := by field_simp
  rw [sum_sq_shift l (l.sum / l.length) c, hz]
  have : 0 ≤ (l.length : ℝ) * (l.sum / l.length - c) ^ 2 :=
    mul_nonneg (Nat.cast_nonneg _) (sq_nonneg _)
  linarith

/-- Bound on the population standard deviation of a list lying in `[lo, hi]`. -/
theorem populationStdDev_le (l : List ℝ) (lo hi : ℝ) (hl : l ≠ [])
    (hb : ∀ x ∈ l, lo ≤ x ∧ x ≤ hi) : populationStdDev Real.sqrt l ≤ (hi - lo) / 2 := by
  have hlenN : 0 < l.length := List.length_pos.mpr hl
  have hlen : (0 : ℝ) < l.length := by exact_mod_cast hlenN
  obtain ⟨x0, hx0⟩ := List.exists_mem_of_ne_nil l hl
  have hlohi : lo ≤ hi := le_trans (hb x0 hx0).1 (hb x0 hx0).2
  have h1 := sum_sq_mean_le l ((lo + hi) / 2) hl
  have h2 : (l.map (fun x => (x - (lo + hi) / 2) ^ 2)).sum ≤
      (l.map (fun x => (x - (lo + hi) / 2) ^ 2)).length • ((hi - lo) / 2) ^ 2 := by
    apply List.sum_le_card_nsmul
    intro y hy
    obtain ⟨x, hx, rfl⟩ := List.mem_map.mp hy
    have hx1 := (hb x hx).1
    have hx2 := (hb x hx).2
    nlinarith [mul_nonneg (sub_nonneg.mpr hx1) (sub_nonneg.mpr hx2)]
  rw [List.length_map, nsmul_eq_mul] at h2
  unfold populationStdDev
  rw [Real.sqrt_le_left (by linarith)]
  rw [div_le_iff₀ hlen]
  calc (l.map (fun x => (x - l.sum / l.length) ^ 2)).sum
      ≤ (l.length : ℝ) * ((hi - lo) / 2) ^ 2 := le_trans h1 h2
    _ = ((hi - lo) / 2) ^ 2 * l.length := by ring

/-- C10: with the arithmetic read over the reals, for every history and every
sample the returned drift `d` satisfies `0 ≤ d`, and `d ≤ (hi - lo) / 2` for all
bounds `lo ≤ x ≤ hi` on the samples held after the call, in particular for
their minimum and maximum; so `d ≤ 0.1` when all recorded samples lie in
`[0.75, 0.95]`. -/
theorem drift_bounds_real (h : List ℝ) (v : ℝ) :
    0 ≤ (calculate_semantic_drift Real.sqrt h v).2 ∧
    (∀ lo hi : ℝ, (∀ x ∈ (calculate_semantic_drift Real.sqrt h v).1, lo ≤ x ∧ x ≤ hi) →
      (calculate_semantic_drift Real.sqrt h v).2 ≤ (hi - lo) / 2) ∧
    ((∀ x ∈ h ++ [v], 3 / 4 ≤ x ∧ x ≤ 19 / 20) →
      (calculate_semantic_drift Real.sqrt h v).2 ≤ 1 / 10) := by
  have hne : (calculate_semantic_drift Real.sqrt h v).1 ≠ [] :=
    List.ne_nil_of_mem (new_sample_mem_history Real.sqrt h v)
  have hgen : ∀ lo hi : ℝ,
      (∀ x ∈ (calculate_semantic_drift Real.sqrt h v).1, lo ≤ x ∧ x ≤ hi) →
      (calculate_semantic_drift Real.sqrt h v).2 ≤ (hi - lo) / 2 := by
    intro lo hi hb
    rw [drift_eq]
    split
    · have hv := hb v (new_sample_mem_history Real.sqrt h v)
      linarith [hv.1, hv.2]
    · exact populationStdDev_le _ lo hi hne hb
  refine ⟨?_, hgen, ?_⟩
  · rw [drift_eq]
    split
    · exact le_refl 0
    · exact Real.sqrt_nonneg _
  · intro hb
    have := hgen (3 / 4) (19 / 20)
      (fun x hx => hb x (mem_history_after_call Real.sqrt h v x hx))
    linarith

end Real

end QCOS

/-! ## Comparisons: the entropy probe and the policy selector -/

namespace QCOS

set_option maxRecDepth 100000
set_option exponentiation.threshold 2048

/-- The integer `aligned` is the exact value, scaled by `2^(-e0)`. -/
theorem Fp.aligned_cast (s : Bool) (m : Nat) (e e0 : Int) (h : e0 ≤ e) :
    ((Fp.aligned s m e e0 : Int) : ℚ) = Fp.toRat (Fp.fin s m e) / (2 : ℚ) ^ e0 := by
  have hpow : ((2 : ℚ) ^ (e - e0).toNat) = (2 : ℚ) ^ e / (2 : ℚ) ^ e0 := by
    rw [← zpow_natCast, Int.toNat_of_nonneg (by omega), zpow_sub₀ (by norm_num)]
  unfold Fp.aligned Fp.toRat
  cases s <;> simp [hpow] <;> ring

/-- The comparison of two finite data is the comparison of their values. -/
theorem Fp.lt_fin_iff (s1 : Bool) (m1 : Nat) (e1 : Int) (s2 : Bool) (m2 : Nat) (e2 : Int) :
    Fp.lt (Fp.fin s1 m1 e1) (Fp.fin s2 m2 e2) = true ↔
      Fp.toRat (Fp.fin s1 m1 e1) < Fp.toRat (Fp.fin s2 m2 e2) := by
  have hpos : (0 : ℚ) < (2 : ℚ) ^ (min e1 e2) := by positivity
  unfold Fp.lt
  rw [decide_eq_true_iff, ← @Int.cast_lt ℚ, Fp.aligned_cast _ _ _ _ (min_le_left _ _),
    Fp.aligned_cast _ _ _ _ (min_le_right _ _), div_lt_div_iff_of_pos_right hpos]

/-- The `double` literal `0.85`. -/
theorem F64.ofDec_17_20 : F64.ofDec 17 20 = Fp.fin false 7656119366529843 (-53) := by decide

/-- The `double` literal `0.85` lies below the real number `0.85`. -/
theorem F64.toRat_ofDec_17_20 : Fp.toRat (F64.ofDec 17 20) < 17 / 20 := by
  rw [F64.ofDec_17_20]
  norm_num [Fp.toRat]

/-- The integer `0` converted to `double`. -/
theorem F64.ofNat_zero : F64.ofNat 0 = Fp.fin false 0 (-1074) := by decide

/-- No binary32 significand puts a value between the `double` literal `0.85`
and the real number `0.85`. -/
theorem F32.no_value_in_gap (s : Bool) (m : Nat) (e : Int) (hm : m < 2 ^ 24)
    (h : Fp.toRat (Fp.fin false 7656119366529843 (-53)) < Fp.toRat (Fp.fin s m e)) :
    17 / 20 < Fp.toRat (Fp.fin s m e) := by
  have hD : Fp.toRat (Fp.fin false 7656119366529843 (-53)) = 7656119366529843 / 2 ^ 53 := by
    norm_num [Fp.toRat]
  rw [hD] at h
  have hmq : (m : ℚ) < 2 ^ 24 := by exact_mod_cast hm
  have hm0 : (0 : ℚ) ≤ m := Nat.cast_nonneg m
  have hpe : (0 : ℚ) < (2 : ℚ) ^ e := by positivity
  cases s with
  | true =>
    exfalso
    have : Fp.toRat (Fp.fin true m e) ≤ 0 := by
      simp only [Fp.toRat, if_true]
      nlinarith [mul_nonneg hm0 hpe.le]
    have hpos : (0 : ℚ) < 7656119366529843 / 2 ^ 53 := by norm_num
    linarith
  | false =>
    have hv : Fp.toRat (Fp.fin false m e) = (m : ℚ) * (2 : ℚ) ^ e := by
      simp [Fp.toRat]
    rw [hv] at h ⊢
    by_cases he : e ≤ -25
    · exfalso
      have h1 : (2 : ℚ) ^ e ≤ (2 : ℚ) ^ (-25 : ℤ) := zpow_le_zpow_right₀ (by norm_num) he
      have h2 : (m : ℚ) * (2 : ℚ) ^ e ≤ (m : ℚ) * (2 : ℚ) ^ (-25 : ℤ) :=
        mul_le_mul_of_nonneg_left h1 hm0
      have h3 : (m : ℚ) * (2 : ℚ) ^ (-25 : ℤ) < 2 ^ 24 * (2 : ℚ) ^ (-25 : ℤ) :=
        mul_lt_mul_of_pos_right hmq (by positivity)
      have h4 : (2 : ℚ) ^ 24 * (2 : ℚ) ^ (-25 : ℤ) = 1 / 2 := by norm_num
      have h5 : (1 : ℚ) / 2 < 7656119366529843 / 2 ^ 53 := by norm_num
      have h6 : (m : ℚ) * (2 : ℚ) ^ e < 1 / 2 := lt_of_le_of_lt h2 (h4 ▸ h3)
      exact lt_irrefl _ (lt_trans (lt_trans h5 h) h6)
    · have hj : e = ((e + 24).toNat : ℤ) - 24 := by
        rw [Int.toNat_of_nonneg (by omega)]; ring
      have hpow : (2 : ℚ) ^ e = (2 : ℚ) ^ (e + 24).toNat / 2 ^ 24 := by
        conv_lhs => rw [hj]
        rw [zpow_sub₀ (by norm_num), zpow_natCast]
        norm_num
      have hk : (m : ℚ) * (2 : ℚ) ^ e = ((m * 2 ^ (e + 24).toNat : ℕ) : ℚ) / 2 ^ 24 := by
        rw [hpow]; push_cast; ring
      rw [hk] at h ⊢
      generalize m * 2 ^ (e + 24).toNat = k at h ⊢
      have h6 : (7656119366529843 : ℚ) * 2 ^ 24 < (k : ℚ) * 2 ^ 53 := by
        rw [div_lt_div_iff₀ (by positivity) (by positivity)] at h
        exact h
      have h7 : 7656119366529843 * 2 ^ 24 < k * 2 ^ 53 := by exact_mod_cast h6
      have h8 : 17 * 2 ^ 24 < 20 * k := by norm_num at h7 ⊢; omega
      have h9 : (17 : ℚ) * 2 ^ 24 < 20 * (k : ℚ) := by exact_mod_cast h8
      rw [div_lt_div_iff₀ (by positivity) (by positivity)]
      linarith

/-- The two labels are different strings. -/
theorem labels_ne : ("ACT_OPTIMIZE" : String) ≠ "HEURISTIC_SEARCH" := by decide

/-- The label is `"ACT_OPTIMIZE"` exactly when the comparison holds. -/
theorem policy_eq_act_iff (v : F32) :
    policy v = "ACT_OPTIMIZE" ↔ Fp.lt (F64.ofDec 17 20) (F32.toDouble v) = true := by
  unfold policy
  split
  · simp [*]
  · simp [*, labels_ne.symm]

/-- C6, as the code has it: for every binary32 score, the label is
`"ACT_OPTIMIZE"` exactly when the score is `+∞` or a finite value greater than
`0.85`, and `"HEURISTIC_SEARCH"` otherwise (NaN included).  The score `0.86f`
gives `"ACT_OPTIMIZE"`.  No `float` equals `0.85`: the one nearest to it,
`0.85f = 14260634 * 2^-24`, is greater than `0.85` and gives `"ACT_OPTIMIZE"`;
the next one below, `14260633 * 2^-24`, gives `"HEURISTIC_SEARCH"`. -/
theorem policy_threshold (v : F32) (hv : F32.isBinary32 v = true) :
    (policy v = "ACT_OPTIMIZE" ↔
      (v = Fp.inf false ∨ (Fp.isFinite v = true ∧ 17 / 20 < Fp.toRat v))) ∧
    (policy v ≠ "ACT_OPTIMIZE" → policy v = "HEURISTIC_SEARCH") ∧
    policy (F32.ofDec 43 50) = "ACT_OPTIMIZE" ∧
    (F32.ofDec 17 20 = Fp.fin false 14260634 (-24) ∧
      (17 / 20 < Fp.toRat (F32.ofDec 17 20)) ∧ policy (F32.ofDec 17 20) = "ACT_OPTIMIZE") ∧
    policy (Fp.fin false 14260633 (-24)) = "HEURISTIC_SEARCH" := by
  have h085 : F32.ofDec 17 20 = Fp.fin false 14260634 (-24) := by decide
  refine ⟨?_, ?_, by decide, ⟨h085, ?_, by decide⟩, by decide⟩
  · rw [policy_eq_act_iff, F64.ofDec_17_20]
    cases v with
    | nan => simp [F32.toDouble, Fp.lt, Fp.isFinite]
    | inf t =>
      cases t
      · simp [F32.toDouble, Fp.lt, Fp.isFinite]
      · simp only [F32.toDouble, Fp.lt, Fp.isFinite, Bool.false_eq_true, false_and, or_false,
          false_iff]
        exact ⟨fun h => absurd h (by decide), fun h => by cases h⟩
    | fin s m e =>
      have hm : m < 2 ^ 24 := by
        simp only [F32.isBinary32, decide_eq_true_eq] at hv
        exact hv.1
      simp only [F32.toDouble, Fp.lt_fin_iff, Fp.isFinite, true_and, false_or, reduceCtorEq]
      constructor
      · exact F32.no_value_in_gap s m e hm
      · intro h
        have := F64.toRat_ofDec_17_20
        rw [F64.ofDec_17_20] at this
        exact lt_trans this h
  · intro h
    unfold policy at h ⊢
    split
    · simp_all
    · rfl
  · rw [h085]
    norm_num [Fp.toRat]

/-- C6, witness: the general statement at the score `0.86f`. -/
theorem policy_threshold_at_086 :
    F32.isBinary32 (F32.ofDec 43 50) = true ∧
    (policy (F32.ofDec 43 50) = "ACT_OPTIMIZE" ↔
      (F32.ofDec 43 50 = Fp.inf false ∨
        (Fp.isFinite (F32.ofDec 43 50) = true ∧ 17 / 20 < Fp.toRat (F32.ofDec 43 50)))) :=
  ⟨by decide, (policy_threshold (F32.ofDec 43 50) (by decide)).1⟩

/-- C6, as stated, fails at the score `0.85f`, the `float` nearest to `0.85`:
it is `14260634 * 2^-24`, and the label is `"ACT_OPTIMIZE"`, not
`"HEURISTIC_SEARCH"`.  `main` computes this very score when `rand()` returns
`1073741823` and `RAND_MAX` is `2147483647`. -/
theorem policy_at_085f_is_act_optimize :
    F32.ofDec 17 20 = Fp.fin false 14260634 (-24) ∧
    F32.isBinary32 (F32.ofDec 17 20) = true ∧
    policy (F32.ofDec 17 20) = "ACT_OPTIMIZE" ∧
    policy (F32.ofDec 17 20) ≠ "HEURISTIC_SEARCH" ∧
    simulated_v_score 2147483647 1073741823 = F32.ofDec 17 20 := by decide

/-- The probe in terms of the value of the reading. -/
theorem entropy_level_iff (e : F64) :
    (get_entropy_availability e = 2048 ↔
      (e = Fp.inf false ∨ (Fp.isFinite e = true ∧ 0 < Fp.toRat e))) ∧
    (get_entropy_availability e = 256 ↔
      ¬ (e = Fp.inf false ∨ (Fp.isFinite e = true ∧ 0 < Fp.toRat e))) ∧
    (get_entropy_availability e = 256 ∨ get_entropy_availability e = 2048) := by
  have hz : Fp.toRat (Fp.fin false 0 (-1074)) = 0 := by simp [Fp.toRat]
  have hpos : Fp.lt (F64.ofNat 0) e = true ↔
      (e = Fp.inf false ∨ (Fp.isFinite e = true ∧ 0 < Fp.toRat e)) := by
    rw [F64.ofNat_zero]
    cases e with
    | nan => simp [Fp.lt, Fp.isFinite]
    | inf t =>
      cases t
      · simp [Fp.lt, Fp.isFinite]
      · simp only [Fp.lt, Fp.isFinite, Bool.false_eq_true, false_and, or_false, false_iff]
        exact ⟨fun h => absurd h (by decide), fun h => by cases h⟩
    | fin s m x => simp only [Fp.lt_fin_iff, hz, Fp.isFinite, true_and, false_or, reduceCtorEq]
  unfold get_entropy_availability
  by_cases h : Fp.lt (F64.ofNat 0) e = true
  · have h' := hpos.mp h
    simp [h, h']
  · have h' : ¬ (e = Fp.inf false ∨ (Fp.isFinite e = true ∧ 0 < Fp.toRat e)) :=
      fun hh => h (hpos.mpr hh)
    simp [h, h']

/-- C9: the probe returns `2048` exactly when the reported entropy is greater
than `0` (`+∞`, or finite and positive) and `256` in every other case (zero,
negative, NaN); no other value is returned. -/
theorem entropy_two_levels (e : F64) :
    (get_entropy_availability e = 2048 ↔
      (e = Fp.inf false ∨ (Fp.isFinite e = true ∧ 0 < Fp.toRat e))) ∧
    (get_entropy_availability e = 256 ↔
      ¬ (e = Fp.inf false ∨ (Fp.isFinite e = true ∧ 0 < Fp.toRat e))) ∧
    (get_entropy_availability e = 256 ∨ get_entropy_availability e = 2048) :=
  entropy_level_iff e

namespace Fp

/-- With enough fuel, `bitLengthAux` is the number of binary digits. -/
theorem bitLengthAux_spec : ∀ (fuel n : Nat), n ≤ fuel → 0 < n →
    2 ^ (bitLengthAux fuel n - 1) ≤ n ∧ n < 2 ^ bitLengthAux fuel n ∧ 0 < bitLengthAux fuel n := by
  intro fuel
  induction fuel with
  | zero => intro n h1 h2; omega
  | succ f ih =>
    intro n hn hpos
    have hne : n ≠ 0 := by omega
    simp only [bitLengthAux, if_neg hne]
    by_cases h2 : n / 2 = 0
    · have h1 : n = 1 := by omega
      subst h1
      cases f <;> simp [bitLengthAux]
    · have hle : n / 2 ≤ f := by omega
      obtain ⟨a, b, c⟩ := ih (n / 2) hle (by omega)
      refine ⟨?_, ?_, by omega⟩
      · have : bitLengthAux f (n / 2) + 1 - 1 = (bitLengthAux f (n / 2) - 1) + 1 := by omega
        rw [this, pow_succ]
        omega
      · rw [pow_succ]; omega

/-- The number of binary digits: `2^(b-1) ≤ n < 2^b`. -/
theorem bitLength_spec (n : Nat) (h : 0 < n) :
    2 ^ (bitLength n - 1) ≤ n ∧ n < 2 ^ bitLength n ∧ 0 < bitLength n :=
  bitLengthAux_spec n n le_rfl h

/-- The pair returned by `scaled` is the fraction `num / den / 2^e`. -/
theorem scaled_spec (num den : Nat) (e : Int) (hden : 0 < den) :
    0 < (scaled num den e).2 ∧
      ((scaled num den e).1 : ℚ) / ((scaled num den e).2 : ℚ) = (num : ℚ) / den / (2 : ℚ) ^ e := by
  have hd : (den : ℚ) ≠ 0 := by exact_mod_cast hden.ne'
  unfold scaled
  by_cases he : 0 ≤ e
  · rw [if_pos he]
    refine ⟨Nat.mul_pos hden (by positivity), ?_⟩
    have h2 : (2 : ℚ) ^ e = (2 : ℚ) ^ e.toNat := by
      rw [← zpow_natCast, Int.toNat_of_nonneg he]
    rw [h2]
    push_cast
    field_simp
  · rw [if_neg he]
    refine ⟨hden, ?_⟩
    have h2 : (2 : ℚ) ^ e = ((2 : ℚ) ^ (-e).toNat)⁻¹ := by
      rw [← zpow_natCast, Int.toNat_of_nonneg (by omega), zpow_neg, inv_inv]
    rw [h2]
    push_cast
    field_simp

/-- A fraction of naturals whose value is a natural number. -/
theorem eq_mul_of_div_eq (a b K : Nat) (hb : 0 < b) (h : (a : ℚ) / b = K) : a = K * b := by
  have hb' : (b : ℚ) ≠ 0 := by exact_mod_cast hb.ne'
  have : (a : ℚ) = K * b := by
    field_simp at h
    exact h
  exact_mod_cast this

/-- An exact quotient is not changed by the rounding. -/
theorem divRoundEven_mul (K b : Nat) (hb : 0 < b) : divRoundEven (K * b) b = K := by
  unfold divRoundEven
  simp [Nat.mul_div_cancel _ hb, hb]

/-- The value `m * 2^e` of a normalised significand, rounded at quantum exponent `x ∈ {e, e-1}`. -/
theorem scaled_exact (num den m : Nat) (e x : Int) (j : Nat) (hden : 0 < den)
    (hv : (num : ℚ) / den = m * (2 : ℚ) ^ e) (hx : e = x + j) :
    (scaled num den x).1 = (m * 2 ^ j) * (scaled num den x).2 ∧ 0 < (scaled num den x).2 := by
  obtain ⟨hpos, hq⟩ := scaled_spec num den x hden
  refine ⟨?_, hpos⟩
  apply eq_mul_of_div_eq _ _ _ hpos
  rw [hq, hv, hx, zpow_add₀ (by norm_num), zpow_natCast]
  push_cast
  have : (2 : ℚ) ^ x ≠ 0 := by positivity
  field_simp
  ring


/-- Rounding is exact on a value of the format: if `num / den` is `m * 2^e`
with `(m, e)` in the normalised form of the format, the result is that
datum. -/
theorem round_exact (p : Nat) (emin emax : Int) (neg : Bool) (num den m : Nat) (e : Int)
    (hden : 0 < den) (hm0 : 0 < m) (hm : m < 2 ^ p) (he1 : emin ≤ e) (he2 : e ≤ emax)
    (hc : e = emin ∨ 2 ^ (p - 1) ≤ m) (hp : 1 ≤ p)
    (hv : (num : ℚ) / den = m * (2 : ℚ) ^ e) :
    round p emin emax neg num den = fin neg m e := by
  have hdq : (0 : ℚ) < den := by exact_mod_cast hden
  have hmq : (0 : ℚ) < m := by exact_mod_cast hm0
  have hvpos : (0 : ℚ) < (num : ℚ) / den := by rw [hv]; positivity
  have hnum : 0 < num := by
    rcases Nat.eq_zero_or_pos num with h | h
    · rw [h] at hvpos; simp at hvpos
    · exact h
  have hnq : (0 : ℚ) < num := by exact_mod_cast hnum
  obtain ⟨hn1, hn2, hn3⟩ := bitLength_spec num hnum
  obtain ⟨hd1, hd2, hd3⟩ := bitLength_spec den hden
  -- bounds on the value in terms of the bit lengths
  have hlow : (2 : ℚ) ^ ((bitLength num : Int) - (bitLength den : Int) - 1) < (num : ℚ) / den := by
    have h1 : ((2 : ℚ) ^ (bitLength num - 1)) ≤ num := by exact_mod_cast hn1
    have h2 : (den : ℚ) < (2 : ℚ) ^ (bitLength den) := by exact_mod_cast hd2
    have e1 : (2 : ℚ) ^ ((bitLength num : Int) - (bitLength den : Int) - 1)
        = (2 : ℚ) ^ (bitLength num - 1) / (2 : ℚ) ^ (bitLength den) := by
      have : ((bitLength num : Int) - (bitLength den : Int) - 1)
          = ((bitLength num - 1 : Nat) : Int) - ((bitLength den : Nat) : Int) := by omega
      rw [this, zpow_sub₀ (by norm_num), zpow_natCast, zpow_natCast]
    rw [e1, div_lt_div_iff₀ (by positivity) hdq]
    calc (2 : ℚ) ^ (bitLength num - 1) * den < (2 : ℚ) ^ (bitLength num - 1) * 2 ^ bitLength den :=
          mul_lt_mul_of_pos_left h2 (by positivity)
      _ ≤ num * 2 ^ bitLength den := mul_le_mul_of_nonneg_right h1 (by positivity)
  have hhigh : (num : ℚ) / den < (2 : ℚ) ^ ((bitLength num : Int) - (bitLength den : Int) + 1) := by
    have h1 : (num : ℚ) < (2 : ℚ) ^ (bitLength num) := by exact_mod_cast hn2
    have h2 : ((2 : ℚ) ^ (bitLength den - 1)) ≤ den := by exact_mod_cast hd1
    have e1 : (2 : ℚ) ^ ((bitLength num : Int) - (bitLength den : Int) + 1)
        = (2 : ℚ) ^ (bitLength num) / (2 : ℚ) ^ (bitLength den - 1) := by
      have : ((bitLength num : Int) - (bitLength den : Int) + 1)
          = ((bitLength num : Nat) : Int) - ((bitLength den - 1 : Nat) : Int) := by omega
      rw [this, zpow_sub₀ (by norm_num), zpow_natCast, zpow_natCast]
    rw [e1, div_lt_div_iff₀ hdq (by positivity)]
    calc (num : ℚ) * 2 ^ (bitLength den - 1) < 2 ^ bitLength num * 2 ^ (bitLength den - 1) :=
          mul_lt_mul_of_pos_right h1 (by positivity)
      _ ≤ 2 ^ bitLength num * den := mul_le_mul_of_nonneg_left h2 (by positivity)
  -- so the exponent estimate is `e` or `e - 1`
  have hmp : (m : ℚ) < (2 : ℚ) ^ (p : Int) := by
    rw [zpow_natCast]; exact_mod_cast hm
  have hle : (bitLength num : Int) - (bitLength den : Int) - (p : Int) ≤ e := by
    by_contra hcon
    have hlt : (p : Int) + e ≤ (bitLength num : Int) - (bitLength den : Int) - 1 := by omega
    have h1 : (num : ℚ) / den < (2 : ℚ) ^ ((p : Int) + e) := by
      rw [hv, zpow_add₀ (by norm_num)]
      exact mul_lt_mul_of_pos_right hmp (by positivity)
    have h2 : (2 : ℚ) ^ ((p : Int) + e)
        ≤ (2 : ℚ) ^ ((bitLength num : Int) - (bitLength den : Int) - 1) :=
      zpow_le_zpow_right₀ (by norm_num) hlt
    exact lt_irrefl _ (lt_trans (lt_of_lt_of_le h1 h2) hlow)
  have hge : 2 ^ (p - 1) ≤ m →
      e ≤ (bitLength num : Int) - (bitLength den : Int) - (p : Int) + 1 := by
    intro hnorm
    by_contra hcon
    have hlt : (bitLength num : Int) - (bitLength den : Int) + 1 ≤ ((p - 1 : Nat) : Int) + e := by
      omega
    have hmq2 : (2 : ℚ) ^ (((p - 1 : Nat)) : Int) ≤ m := by
      rw [zpow_natCast]; exact_mod_cast hnorm
    have h1 : (2 : ℚ) ^ (((p - 1 : Nat) : Int) + e) ≤ (num : ℚ) / den := by
      rw [hv, zpow_add₀ (by norm_num)]
      exact mul_le_mul_of_nonneg_right hmq2 (by positivity)
    have h2 : (2 : ℚ) ^ ((bitLength num : Int) - (bitLength den : Int) + 1)
        ≤ (2 : ℚ) ^ (((p - 1 : Nat) : Int) + e) :=
      zpow_le_zpow_right₀ (by norm_num) hlt
    exact lt_irrefl _ (lt_of_lt_of_le hhigh (le_trans h2 h1))
  -- the two cases
  have hcases : max ((bitLength num : Int) - (bitLength den : Int) - (p : Int)) emin = e ∨
      (max ((bitLength num : Int) - (bitLength den : Int) - (p : Int)) emin = e - 1 ∧
        2 ^ (p - 1) ≤ m) := by
    rcases hc with h | h
    · left; omega
    · have := hge h
      by_cases h3 : max ((bitLength num : Int) - (bitLength den : Int) - (p : Int)) emin = e
      · left; exact h3
      · right; exact ⟨by omega, h⟩
  have hfinal : ∀ x : Int, (x = e ∨ (x = e - 1 ∧ 2 ^ (p - 1) ≤ m)) →
      (let s0 := scaled num den x
       let e1 : Int := if 2 ^ p ≤ s0.1 / s0.2 then x + 1 else x
       let s1 := scaled num den e1
       let m' := divRoundEven s1.1 s1.2
       let me : Nat × Int := if m' = 2 ^ p then (2 ^ (p - 1), e1 + 1) else (m', e1)
       if emax < me.2 then inf neg else fin neg me.1 me.2) = fin neg m e := by
    intro x hx
    have hs : (scaled num den e).1 = (m * 2 ^ 0) * (scaled num den e).2 ∧ 0 < (scaled num den e).2 :=
      scaled_exact num den m e e 0 hden hv (by simp)
    have hdr : divRoundEven (scaled num den e).1 (scaled num den e).2 = m := by
      rw [hs.1]; simpa using divRoundEven_mul m _ hs.2
    have he1 : (if 2 ^ p ≤ (scaled num den x).1 / (scaled num den x).2 then x + 1 else x) = e := by
      rcases hx with h | ⟨h, hnorm⟩
      · subst h
        rw [hs.1, Nat.mul_div_cancel _ hs.2, if_neg (by simpa using hm)]
      · have hs' := scaled_exact num den m e x 1 hden hv (by omega)
        rw [hs'.1, Nat.mul_div_cancel _ hs'.2]
        have : 2 ^ p ≤ m * 2 ^ 1 := by
          have : 2 ^ p = 2 ^ (p - 1) * 2 := by
            conv_lhs => rw [show p = (p - 1) + 1 by omega]
            rw [pow_succ]
          omega
        rw [if_pos this]; omega
    simp only [he1, hdr, if_neg (ne_of_lt hm)]
    rw [if_neg (not_lt.mpr he2)]
  unfold round
  rw [if_neg (by omega)]
  exact hfinal _ hcases

/-- Rounding a dyadic number is exact on a value of the format. -/
theorem roundDyadic_exact (p : Nat) (emin emax : Int) (neg : Bool) (M : Nat) (E : Int)
    (m : Nat) (e : Int) (hp : 1 ≤ p) (hm0 : 0 < m) (hc : Canonical p emin emax m e)
    (hv : (M : ℚ) * (2 : ℚ) ^ E = m * (2 : ℚ) ^ e) :
    roundDyadic p emin emax neg M E = fin neg m e := by
  obtain ⟨h1, h2, h3, h4⟩ := hc
  unfold roundDyadic
  by_cases hE : 0 ≤ E
  · rw [if_pos hE]
    apply round_exact p emin emax neg _ 1 m e (by norm_num) hm0 h1 h2 h3 h4 hp
    rw [← hv]
    have : (2 : ℚ) ^ E = (2 : ℚ) ^ E.toNat := by
      rw [← zpow_natCast, Int.toNat_of_nonneg hE]
    rw [this]; push_cast; ring
  · rw [if_neg hE]
    apply round_exact p emin emax neg _ _ m e (by positivity) hm0 h1 h2 h3 h4 hp
    rw [← hv]
    have : (2 : ℚ) ^ E = ((2 : ℚ) ^ (-E).toNat)⁻¹ := by
      rw [← zpow_natCast, Int.toNat_of_nonneg (by omega), zpow_neg, inv_inv]
    rw [this]; push_cast; ring

/-- The sign bit is the sign of a nonzero value. -/
theorem toRat_fin_neg_iff (s : Bool) (m : Nat) (e : Int) (hm : 0 < m) :
    toRat (fin s m e) < 0 ↔ s = true := by
  have hmq : (0 : ℚ) < m := by exact_mod_cast hm
  have hp : (0 : ℚ) < (m : ℚ) * (2 : ℚ) ^ e := by positivity
  cases s
  · simp only [toRat, Bool.false_eq_true, if_false, one_mul, iff_false, not_lt]
    exact hp.le
  · simp only [toRat, if_true, iff_true]
    linarith

/-- The absolute value of a finite datum. -/
theorem abs_toRat_fin (s : Bool) (m : Nat) (e : Int) :
    |toRat (fin s m e)| = (m : ℚ) * (2 : ℚ) ^ e := by
  have hp : (0 : ℚ) ≤ (m : ℚ) * (2 : ℚ) ^ e := by positivity
  cases s
  · simp only [toRat, Bool.false_eq_true, if_false, one_mul]
    exact abs_of_nonneg hp
  · simp only [toRat, if_true]
    rw [show (-1 : ℚ) * (m : ℚ) * (2 : ℚ) ^ e = -((m : ℚ) * (2 : ℚ) ^ e) by ring, abs_neg]
    exact abs_of_nonneg hp

/-- Addition is exact when the exact sum is a nonzero value of the format. -/
theorem add_exact (p : Nat) (emin emax : Int) (s1 : Bool) (m1 : Nat) (e1 : Int)
    (s2 : Bool) (m2 : Nat) (e2 : Int) (sr : Bool) (mr : Nat) (er : Int)
    (hp : 1 ≤ p) (hm0 : 0 < mr) (hc : Canonical p emin emax mr er)
    (hv : toRat (fin s1 m1 e1) + toRat (fin s2 m2 e2) = toRat (fin sr mr er)) :
    add p emin emax (fin s1 m1 e1) (fin s2 m2 e2) = fin sr mr er := by
  have h2pos : (0 : ℚ) < (2 : ℚ) ^ (min e1 e2) := by positivity
  have hc1 : ((aligned s1 m1 e1 (min e1 e2) + aligned s2 m2 e2 (min e1 e2) : Int) : ℚ)
      = toRat (fin sr mr er) / (2 : ℚ) ^ (min e1 e2) := by
    push_cast
    rw [aligned_cast _ _ _ _ (min_le_left _ _), aligned_cast _ _ _ _ (min_le_right _ _), ← hv]
    ring
  have hr0 : toRat (fin sr mr er) ≠ 0 := by
    have := abs_toRat_fin sr mr er
    have hmq : (0 : ℚ) < mr := by exact_mod_cast hm0
    have hp : (0 : ℚ) < (mr : ℚ) * (2 : ℚ) ^ er := by positivity
    intro h0
    rw [h0, abs_zero] at this
    linarith
  have hcne : aligned s1 m1 e1 (min e1 e2) + aligned s2 m2 e2 (min e1 e2) ≠ 0 := by
    intro h0
    rw [h0] at hc1
    simp only [Int.cast_zero] at hc1
    have := div_eq_zero_iff.mp hc1.symm
    rcases this with h | h
    · exact hr0 h
    · exact h2pos.ne' h
  have hsign : decide (aligned s1 m1 e1 (min e1 e2) + aligned s2 m2 e2 (min e1 e2) < 0) = sr := by
    have h1 : (aligned s1 m1 e1 (min e1 e2) + aligned s2 m2 e2 (min e1 e2) < 0)
        ↔ toRat (fin sr mr er) < 0 := by
      rw [← @Int.cast_lt ℚ, hc1, Int.cast_zero, div_lt_iff₀ h2pos, zero_mul]
    rw [toRat_fin_neg_iff sr mr er hm0] at h1
    cases sr
    · simp only [decide_eq_false_iff_not]; intro h; exact absurd (h1.mp h) (by decide)
    · simp only [decide_eq_true_eq]; exact h1.mpr rfl
  unfold add
  simp only [if_neg hcne, hsign]
  apply roundDyadic_exact p emin emax sr _ _ mr er hp hm0 hc
  rw [Nat.cast_natAbs, Int.cast_abs, hc1, abs_div, abs_toRat_fin, abs_of_pos h2pos]
  field_simp

/-- Division by a positive value is exact when the exact quotient is a
nonzero value of the format. -/
theorem div_exact (p : Nat) (emin emax : Int) (s1 : Bool) (m1 : Nat) (e1 : Int)
    (m2 : Nat) (e2 : Int) (sr : Bool) (mr : Nat) (er : Int)
    (hp : 1 ≤ p) (hm2 : 0 < m2) (hm0 : 0 < mr) (hc : Canonical p emin emax mr er)
    (hv : toRat (fin s1 m1 e1) / toRat (fin false m2 e2) = toRat (fin sr mr er)) :
    div p emin emax (fin s1 m1 e1) (fin false m2 e2) = fin sr mr er := by
  obtain ⟨h1, h2, h3, h4⟩ := hc
  have hm2q : (0 : ℚ) < m2 := by exact_mod_cast hm2
  have hb : toRat (fin false m2 e2) = (m2 : ℚ) * (2 : ℚ) ^ e2 := by simp [toRat]
  have hbpos : (0 : ℚ) < toRat (fin false m2 e2) := by rw [hb]; positivity
  have hm1 : 0 < m1 := by
    rcases Nat.eq_zero_or_pos m1 with h | h
    · exfalso
      have hmq : (0 : ℚ) < mr := by exact_mod_cast hm0
      have hpos : (0 : ℚ) < (mr : ℚ) * (2 : ℚ) ^ er := by positivity
      have := abs_toRat_fin sr mr er
      rw [← hv, h] at this
      simp [toRat] at this
      rcases this with h0 | h0
      · omega
      · exact (ne_of_gt (by positivity : (0 : ℚ) < (2 : ℚ) ^ er)) h0
    · exact h
  have hs : s1 = sr := by
    have ha : toRat (fin s1 m1 e1) < 0 ↔ toRat (fin sr mr er) < 0 := by
      rw [← hv, div_neg_iff]
      constructor
      · intro h; right; exact ⟨h, hbpos⟩
      · intro h
        rcases h with ⟨_, h⟩ | ⟨h, _⟩
        · exact absurd h (not_lt.mpr hbpos.le)
        · exact h
    rw [toRat_fin_neg_iff _ _ _ hm1, toRat_fin_neg_iff _ _ _ hm0] at ha
    cases s1 <;> cases sr <;> simp_all
  have habs : (m1 : ℚ) * (2 : ℚ) ^ e1 / ((m2 : ℚ) * (2 : ℚ) ^ e2) = (mr : ℚ) * (2 : ℚ) ^ er := by
    have := congrArg abs hv
    rw [abs_div, abs_toRat_fin, abs_toRat_fin, abs_toRat_fin] at this
    exact this
  unfold div
  simp only [if_neg (Nat.pos_iff_ne_zero.mp hm2), Bool.xor_false, hs]
  have h2e2 : (2 : ℚ) ^ e2 ≠ 0 := by positivity
  by_cases hd : 0 ≤ e1 - e2
  · rw [if_pos hd]
    apply round_exact p emin emax sr _ _ mr er hm2 hm0 h1 h2 h3 h4 hp
    rw [← habs]
    have : (2 : ℚ) ^ e1 = (2 : ℚ) ^ (e1 - e2).toNat * (2 : ℚ) ^ e2 := by
      rw [← zpow_natCast, Int.toNat_of_nonneg hd, ← zpow_add₀ (by norm_num)]
      congr 1; ring
    rw [this]; push_cast; field_simp; ring
  · rw [if_neg hd]
    apply round_exact p emin emax sr _ _ mr er (by positivity) hm0 h1 h2 h3 h4 hp
    rw [← habs]
    have : (2 : ℚ) ^ e2 = (2 : ℚ) ^ (-(e1 - e2)).toNat * (2 : ℚ) ^ e1 := by
      rw [← zpow_natCast, Int.toNat_of_nonneg (by omega), ← zpow_add₀ (by norm_num)]
      congr 1; ring
    rw [this]; push_cast; field_simp; ring

/-- Every dyadic number `M * 2^E` with `M < 2^p` and `emin ≤ E ≤ emax` has a
normalised form in the format. -/
theorem canonical_of_dyadic (p : Nat) (emin emax : Int) (M : Nat) (E : Int)
    (hM0 : 0 < M) (hM : M < 2 ^ p) (hE1 : emin ≤ E) (hE2 : E ≤ emax) :
    ∃ (m : Nat) (e : Int), Canonical p emin emax m e ∧ 0 < m ∧
      (m : ℚ) * (2 : ℚ) ^ e = (M : ℚ) * (2 : ℚ) ^ E := by
  obtain ⟨hb1, hb2, hb3⟩ := bitLength_spec M hM0
  have hbp : bitLength M ≤ p := by
    by_contra h
    have : 2 ^ p ≤ 2 ^ (bitLength M - 1) := Nat.pow_le_pow_right (by norm_num) (by omega)
    omega
  -- shift left by `t`, as far as the significand and the exponent range allow
  obtain ⟨t, ht⟩ : ∃ t : Nat, t = min (p - bitLength M) (E - emin).toNat := ⟨_, rfl⟩
  have ht1 : t ≤ p - bitLength M := by rw [ht]; exact min_le_left _ _
  have ht2 : (t : Int) ≤ E - emin := by
    have : t ≤ (E - emin).toNat := by rw [ht]; exact min_le_right _ _
    omega
  refine ⟨M * 2 ^ t, E - t, ⟨?_, by omega, by omega, ?_⟩, by positivity, ?_⟩
  · calc M * 2 ^ t < 2 ^ bitLength M * 2 ^ t := Nat.mul_lt_mul_of_pos_right hb2 (by positivity)
      _ = 2 ^ (bitLength M + t) := (pow_add 2 _ _).symm
      _ ≤ 2 ^ p := Nat.pow_le_pow_right (by norm_num) (by omega)
  · by_cases h : t = p - bitLength M
    · right
      calc 2 ^ (p - 1) = 2 ^ (bitLength M - 1 + t) := by congr 1; omega
        _ = 2 ^ (bitLength M - 1) * 2 ^ t := pow_add 2 _ _
        _ ≤ M * 2 ^ t := Nat.mul_le_mul_right _ hb1
    · left
      have : t = (E - emin).toNat := by
        rw [ht] at h ⊢
        rcases min_choice (p - bitLength M) (E - emin).toNat with h' | h'
        · exact absurd h' h
        · exact h'
      omega
  · push_cast
    rw [zpow_sub₀ (by norm_num), zpow_natCast]
    field_simp
    ring

end Fp

namespace F32

/-- A finite datum is a `float` exactly when it is in normalised form. -/
theorem isBinary32_fin_iff (s : Bool) (m : Nat) (e : Int) :
    F32.isBinary32 (Fp.fin s m e) = true ↔ Fp.Canonical 24 (-149) 104 m e := by
  simp only [F32.isBinary32, decide_eq_true_eq, Fp.Canonical]

/-- Every dyadic `± M * 2^E` with `M < 2^24` and `-149 ≤ E ≤ 104` is a `float`. -/
theorem representable_dyadic (s : Bool) (M : Nat) (E : Int) (hM : M < 2 ^ 24)
    (hE1 : -149 ≤ E) (hE2 : E ≤ 104) : Representable (Fp.toRat (Fp.fin s M E)) := by
  rcases Nat.eq_zero_or_pos M with h0 | hpos
  · refine ⟨Fp.fin s 0 (-149), by cases s <;> decide, rfl, ?_⟩
    rw [h0]; simp [Fp.toRat]
  · obtain ⟨m, e, hc, hm0, hv⟩ := Fp.canonical_of_dyadic 24 (-149) 104 M E hpos hM hE1 hE2
    refine ⟨Fp.fin s m e, (isBinary32_fin_iff s m e).mpr hc, rfl, ?_⟩
    simp only [Fp.toRat, mul_assoc, hv]

/-- The conversion of a positive integer below `2^24` is exact. -/
theorem natCast_exact (N : Nat) (h0 : 0 < N) (hN : N < 2 ^ 24) :
    ∃ (m : Nat) (e : Int), ((N : Nat) : F32) = Fp.fin false m e ∧ 0 < m ∧
      Fp.toRat (Fp.fin false m e) = N := by
  obtain ⟨m, e, hc, hm0, hv⟩ := Fp.canonical_of_dyadic 24 (-149) 104 N 0 h0 hN (by norm_num)
    (by norm_num)
  refine ⟨m, e, ?_, hm0, ?_⟩
  · show Fp.roundDyadic 24 (-149) 104 false N 0 = Fp.fin false m e
    exact Fp.roundDyadic_exact 24 (-149) 104 false N 0 m e (by norm_num) hm0 hc hv.symm
  · simp only [Fp.toRat, Bool.false_eq_true, if_false, one_mul, hv]
    simp

end F32

/-! ## The value returned, in the arithmetic of the code -/

section Formula

variable {F : Type} [Zero F] [Add F] [Sub F] [Mul F] [Div F] [NatCast F]

/-- The value returned by a call, for any carrier: `0` below two samples, the
formula otherwise. -/
theorem drift_eq_formula (sqrt : F → F) (h : List F) (v : F) :
    (calculate_semantic_drift sqrt h v).2 =
      if (calculate_semantic_drift sqrt h v).1.length < 2 then 0
      else stdDevFormula sqrt (calculate_semantic_drift sqrt h v).1 := by
  unfold calculate_semantic_drift stdDevFormula total
  simp only [List.foldl_map]
  split <;> split <;> rfl

/-- The history after recording `n + 1` times the same sample. -/
theorem history_replicate (sqrt : F → F) (c : F) (n : Nat) :
    (calculate_semantic_drift sqrt (recordAll sqrt [] (List.replicate n c)) c).1
      = List.replicate (min (n + 1) 50) c := by
  have h1 : (calculate_semantic_drift sqrt (recordAll sqrt [] (List.replicate n c)) c).1
      = recordAll sqrt [] (List.replicate (n + 1) c) := by
    rw [List.replicate_succ']
    simp [recordAll, List.foldl_append]
  rw [h1, recordAll_eq_drop sqrt _ [] (by simp)]
  simp only [List.nil_append, List.length_replicate, List.drop_replicate, MAX_HISTORY]
  congr 1
  omega

/-- Over a field the formula is the population standard deviation. -/
theorem stdDevFormula_eq_populationStdDev {G : Type} [Field G] (sq : G → G) (l : List G) :
    stdDevFormula sq l = populationStdDev sq l := by
  unfold stdDevFormula populationStdDev total
  simp only [foldl_add_eq_sum, pow_two]

/-- C3, as the code has it: whenever the history holds `N ≥ 2` samples after
the call, the value returned is the formula `sqrt (Σ (x - mean)^2 / N)` with
`mean = Σ x / N` (division by `N`, not `N - 1`) evaluated in the arithmetic of
the code, for `float` with every operation rounded and the sums formed from
the left; in exact arithmetic (any field, any square-root function) this value
is the population standard deviation of the history. -/
theorem drift_is_std_dev_formula (sqrt : F → F) (h : List F) (v : F)
    (hN : 2 ≤ (calculate_semantic_drift sqrt h v).1.length) :
    (calculate_semantic_drift sqrt h v).2
      = stdDevFormula sqrt (calculate_semantic_drift sqrt h v).1 ∧
    (∀ (G : Type) [Field G] (sq : G → G) (g : List G) (w : G),
      2 ≤ (calculate_semantic_drift sq g w).1.length →
      (calculate_semantic_drift sq g w).2
        = populationStdDev sq (calculate_semantic_drift sq g w).1) := by
  refine ⟨by rw [drift_eq_formula, if_neg (by omega)], ?_⟩
  intro G _ sq g w hg
  exact drift_is_population_std_dev sq g w hg

end Formula

/-! ## Constant samples in binary32 -/

namespace F32

/-- The operations of `F32` are those of the format binary32. -/
theorem add_def (a b : F32) : a + b = Fp.add 24 (-149) 104 a b := rfl
theorem sub_def (a b : F32) : a - b = Fp.sub 24 (-149) 104 a b := rfl
theorem mul_def (a b : F32) : a * b = Fp.mul 24 (-149) 104 a b := rfl
theorem div_def (a b : F32) : a / b = Fp.div 24 (-149) 104 a b := rfl
theorem zero_def : (0 : F32) = Fp.fin false 0 (-149) := rfl
theorem natCast_def (n : Nat) : ((n : Nat) : F32) = Fp.roundDyadic 24 (-149) 104 false n 0 := rfl

/-- Exact operations on `+0`. -/
theorem zero_add_zero : (0 : F32) + 0 = 0 := by decide
theorem zero_mul_zero : (0 : F32) * 0 = 0 := by decide
theorem sqrt_zero : F32.sqrt 0 = 0 := by decide

/-- A finite datum is a `fin`. -/
theorem eq_fin_of_isFinite (c : F32) (h : Fp.isFinite c = true) :
    ∃ (s : Bool) (m : Nat) (e : Int), c = Fp.fin s m e := by
  have key : ∀ x : Fp, Fp.isFinite x = true → ∃ (s : Bool) (m : Nat) (e : Int), x = Fp.fin s m e := by
    intro x hx
    cases x with
    | nan => simp [Fp.isFinite] at hx
    | inf t => simp [Fp.isFinite] at hx
    | fin s m e => exact ⟨s, m, e, rfl⟩
  exact key c h

/-- In binary32 `c - c` is `+0` for every finite `c`. -/
theorem sub_self_fin (s : Bool) (m : Nat) (e : Int) :
    Fp.sub 24 (-149) 104 (Fp.fin s m e) (Fp.fin s m e) = Fp.fin false 0 (-149) := by
  cases s <;> simp [Fp.sub, Fp.neg, Fp.add, Fp.aligned]

/-- In binary32 `+0 / x` is `+0` for every positive finite `x`. -/
theorem zero_div_fin (m : Nat) (e : Int) (hm : 0 < m) :
    Fp.div 24 (-149) 104 (Fp.fin false 0 (-149)) (Fp.fin false m e) = Fp.fin false 0 (-149) := by
  have : m ≠ 0 := by omega
  simp [Fp.div, Fp.round, this]

/-- The running sum of zeros is `+0`. -/
theorem total_replicate_zero (N : Nat) : total (List.replicate N (0 : F32)) = 0 := by
  induction N with
  | zero => rfl
  | succ k ih =>
    rw [List.replicate_succ']
    unfold total at ih ⊢
    rw [List.foldl_append, ih]
    exact zero_add_zero

/-- The running sum of `k ≥ 1` copies of a nonzero `c` is the `float` `k * c`
when all the multiples up to `k * c` are floats. -/
theorem total_replicate (c : F32) (s : Bool) (m : Nat) (e : Int) (hce : c = Fp.fin s m e)
    (hm : 0 < m) (N : Nat)
    (hrep : ∀ k, 1 ≤ k → k ≤ N → Representable ((k : ℚ) * Fp.toRat (Fp.fin s m e))) :
    ∀ k, 1 ≤ k → k ≤ N → ∃ (sk : Bool) (mk : Nat) (ek : Int),
      total (List.replicate k c) = Fp.fin sk mk ek ∧
      Fp.toRat (Fp.fin sk mk ek) = (k : ℚ) * Fp.toRat (Fp.fin s m e) := by
  have hc0 : Fp.toRat (Fp.fin s m e) ≠ 0 := by
    have h := Fp.abs_toRat_fin s m e
    have hmq : (0 : ℚ) < m := by exact_mod_cast hm
    have hp : (0 : ℚ) < (m : ℚ) * (2 : ℚ) ^ e := by positivity
    intro h0
    rw [h0, abs_zero] at h
    linarith
  -- the representation of a nonzero multiple
  have hrep' : ∀ k, 1 ≤ k → k ≤ N → ∃ (sk : Bool) (mk : Nat) (ek : Int),
      Fp.Canonical 24 (-149) 104 mk ek ∧ 0 < mk ∧
      Fp.toRat (Fp.fin sk mk ek) = (k : ℚ) * Fp.toRat (Fp.fin s m e) := by
    intro k hk1 hk2
    obtain ⟨x, hx1, hx2, hx3⟩ := hrep k hk1 hk2
    obtain ⟨sk, mk, ek, rfl⟩ := eq_fin_of_isFinite x hx2
    refine ⟨sk, mk, ek, (isBinary32_fin_iff sk mk ek).mp hx1, ?_, hx3⟩
    rcases Nat.eq_zero_or_pos mk with h0 | hpos
    · exfalso
      rw [h0] at hx3
      simp only [Fp.toRat, Nat.cast_zero, mul_zero, zero_mul] at hx3
      have hk : (k : ℚ) ≠ 0 := by
        have : k ≠ 0 := by omega
        exact_mod_cast this
      exact (mul_ne_zero hk hc0) hx3.symm
    · exact hpos
  intro k
  induction k with
  | zero => intro h; omega
  | succ j ih =>
    intro _ hj2
    obtain ⟨sk, mk, ek, hck, hmk, hvk⟩ := hrep' (j + 1) (by omega) hj2
    refine ⟨sk, mk, ek, ?_, hvk⟩
    rw [List.replicate_succ']
    unfold total
    rw [List.foldl_append]
    simp only [List.foldl_cons, List.foldl_nil]
    rcases Nat.eq_zero_or_pos j with h0 | hpos
    · subst h0
      simp only [List.replicate_zero, List.foldl_nil]
      rw [add_def, zero_def, hce]
      apply Fp.add_exact 24 (-149) 104 _ _ _ _ _ _ _ _ _ (by norm_num) hmk hck
      rw [hvk]
      simp [Fp.toRat]
    · obtain ⟨sj, mj, ej, hsum, hvj⟩ := ih hpos (by omega)
      unfold total at hsum
      rw [hsum, add_def, hce]
      apply Fp.add_exact 24 (-149) 104 _ _ _ _ _ _ _ _ _ (by norm_num) hmk hck
      rw [hvk, hvj]
      push_cast
      ring


/-- The running sum of copies of a zero of either sign is `+0`. -/
theorem total_replicate_signed_zero (s : Bool) (c : F32) (hce : c = Fp.fin s 0 (-149))
    (N : Nat) : total (List.replicate N c) = 0 := by
  induction N with
  | zero => rfl
  | succ k ih =>
    rw [List.replicate_succ']
    unfold total at ih ⊢
    rw [List.foldl_append, ih]
    simp only [List.foldl_cons, List.foldl_nil]
    subst hce
    cases s <;> decide

/-- In binary32 the formula gives `+0` on `N` copies of a finite `c` whose
multiples `k * c`, `k ≤ N`, are all floats. -/
theorem stdDevFormula_const (c : F32) (N : Nat) (hN2 : 2 ≤ N) (hN50 : N ≤ 50)
    (hb : isBinary32 c = true) (hf : Fp.isFinite c = true)
    (hrep : ∀ k, 1 ≤ k → k ≤ N → Representable ((k : ℚ) * Fp.toRat c)) :
    stdDevFormula F32.sqrt (List.replicate N c) = 0 := by
  obtain ⟨s, m, e, hce⟩ := eq_fin_of_isFinite c hf
  obtain ⟨mN, eN, hcast, hmN, hvN⟩ := natCast_exact N (by omega)
    (lt_of_le_of_lt hN50 (by norm_num))
  have hcan : Fp.Canonical 24 (-149) 104 m e := by
    rw [hce] at hb
    exact (isBinary32_fin_iff s m e).mp hb
  have hNq : (N : ℚ) ≠ 0 := by
    have : N ≠ 0 := by omega
    exact_mod_cast this
  -- the squared deviation from the computed mean is `+0`
  have hdev : (c - total (List.replicate N c) / ((N : Nat) : F32)) *
      (c - total (List.replicate N c) / ((N : Nat) : F32)) = 0 := by
    rcases Nat.eq_zero_or_pos m with h0 | hpos
    · have he : e = -149 := by
        rcases hcan.2.2.2 with h | h
        · exact h
        · rw [h0] at h; norm_num at h
      have hce' : c = Fp.fin s 0 (-149) := by rw [hce, h0, he]
      rw [total_replicate_signed_zero s c hce' N, hcast, div_def, zero_def, zero_div_fin mN eN hmN]
      subst hce'
      cases s <;> decide
    · obtain ⟨sk, mk, ek, hsum, hvk⟩ :=
        total_replicate c s m e hce hpos N (by rw [← hce]; exact hrep) N (by omega) le_rfl
      have hmean : total (List.replicate N c) / ((N : Nat) : F32) = c := by
        rw [hsum, hcast, div_def, hce]
        apply Fp.div_exact 24 (-149) 104 _ _ _ _ _ _ _ _ (by norm_num) hmN hpos hcan
        rw [hvk, hvN]
        field_simp
      rw [hmean, sub_def, hce, sub_self_fin]
      exact zero_mul_zero
  unfold stdDevFormula
  simp only [List.length_replicate, List.map_replicate, hdev]
  rw [total_replicate_zero, hcast, div_def, zero_def, zero_div_fin mN eN hmN]
  exact sqrt_zero

end F32

/-- In binary32, when the finite value `c` has been recorded `n` times into an
empty history, recording it once more returns exactly `+0`, provided the
multiples `k * c` for `k` up to the window length are all floats. -/
theorem constant_samples_zero_drift_binary32_aux (c : F32) (n : Nat)
    (hb : F32.isBinary32 c = true) (hf : Fp.isFinite c = true)
    (hrep : ∀ k, 1 ≤ k → k ≤ min (n + 1) 50 → F32.Representable ((k : ℚ) * Fp.toRat c)) :
    driftAfter F32.sqrt [] (List.replicate n c) c = 0 := by
  unfold driftAfter
  rw [drift_eq_formula, history_replicate, List.length_replicate]
  split
  · rfl
  · exact F32.stdDevFormula_const c _ (by omega) (min_le_right _ _) hb hf hrep

/-- C4, as the code has it.  Over exact real arithmetic, recording the same
value `c` again and again into an empty history makes every call return `0`.
In binary32, for every finite `c`, the call made after `n` earlier recordings
returns exactly `+0` whenever the multiples `k * c`, for `k` up to the number
of samples then held (`min (n + 1) 50`), are all values of the format; this
covers the second call for every `c` with `|c| < 2^127` (the double of `c` does
not overflow), and every call, beyond the 50th too, for `c = 0.75f`. -/
theorem constant_samples_zero_drift :
    (∀ (c : ℝ) (n : ℕ), driftAfter Real.sqrt [] (List.replicate n c) c = 0) ∧
    (∀ (c : F32) (n : ℕ), F32.isBinary32 c = true → Fp.isFinite c = true →
      (∀ k, 1 ≤ k → k ≤ min (n + 1) 50 → F32.Representable ((k : ℚ) * Fp.toRat c)) →
      driftAfter F32.sqrt [] (List.replicate n c) c = 0) ∧
    (∀ c : F32, F32.isBinary32 c = true → Fp.isFinite c = true →
      |Fp.toRat c| < 2 ^ 127 → driftAfter F32.sqrt [] [c] c = 0) ∧
    (∀ n : ℕ, driftAfter F32.sqrt [] (List.replicate n (F32.ofDec 3 4)) (F32.ofDec 3 4) = 0) := by
  refine ⟨constant_samples_zero_drift_real, constant_samples_zero_drift_binary32_aux, ?_, ?_⟩
  · intro c hb hf habs
    obtain ⟨s, m, e, hce⟩ := F32.eq_fin_of_isFinite c hf
    have hcan : Fp.Canonical 24 (-149) 104 m e := by
      rw [hce] at hb
      exact (F32.isBinary32_fin_iff s m e).mp hb
    have he : e < 104 := by
      by_contra hcon
      have he104 : e = 104 := by
        have := hcan.2.2.1
        omega
      have hm : 2 ^ 23 ≤ m := by
        rcases hcan.2.2.2 with h | h
        · omega
        · simpa using h
      rw [hce, Fp.abs_toRat_fin, he104] at habs
      have hmq : (2 : ℚ) ^ 23 ≤ m := by exact_mod_cast hm
      have h2 : (2 : ℚ) ^ 127 ≤ (m : ℚ) * (2 : ℚ) ^ (104 : ℤ) := by
        calc (2 : ℚ) ^ 127 = (2 : ℚ) ^ 23 * (2 : ℚ) ^ (104 : ℤ) := by norm_num
          _ ≤ (m : ℚ) * (2 : ℚ) ^ (104 : ℤ) := mul_le_mul_of_nonneg_right hmq (by positivity)
      exact absurd (lt_of_le_of_lt h2 habs) (lt_irrefl _)
    have key := constant_samples_zero_drift_binary32_aux c 1 hb hf (by
      intro k hk1 hk2
      have hk : k = 1 ∨ k = 2 := by
        have : k ≤ 2 := le_trans hk2 (min_le_left _ _)
        omega
      rcases hk with rfl | rfl
      · exact ⟨c, hb, hf, by simp⟩
      · have hr := F32.representable_dyadic s m (e + 1) hcan.1
          (by have := hcan.2.1; omega) (by omega)
        have hval : Fp.toRat (Fp.fin s m (e + 1)) = ((2 : ℕ) : ℚ) * Fp.toRat c := by
          rw [hce]
          simp only [Fp.toRat]
          rw [zpow_add₀ (by norm_num)]
          push_cast
          ring
        rw [hval] at hr
        exact hr)
    simpa using key
  · intro n
    have h34 : F32.ofDec 3 4 = Fp.fin false 12582912 (-24) := by decide
    apply constant_samples_zero_drift_binary32_aux _ n (by decide) (by decide)
    intro k hk1 hk2
    have hk50 : k ≤ 50 := le_trans hk2 (min_le_right _ _)
    have h224 : (2 : ℕ) ^ 24 = 16777216 := by norm_num
    have hr := F32.representable_dyadic false (3 * k) (-2) (by omega) (by norm_num) (by norm_num)
    have hval : Fp.toRat (Fp.fin false (3 * k) (-2)) = (k : ℚ) * Fp.toRat (F32.ofDec 3 4) := by
      rw [h34]
      simp only [Fp.toRat]
      push_cast
      norm_num
      ring
    rw [hval] at hr
    exact hr

/-! ## The text written is a report line -/

/-- C1, witness: recording the 51 `float` values `0, 1, …, 50` into an empty
history leaves exactly `1, 2, …, 50`. -/
theorem history_is_last_50_of_0_to_50 :
    51 ≤ ((List.range 51).map (fun n => (n : F32))).length ∧
    recordAll F32.sqrt [] ((List.range 51).map (fun n => (n : F32)))
      = (List.range' 1 50).map (fun n => (n : F32)) :=
  ⟨by decide,
    (history_is_last_50 F32.sqrt ((List.range 51).map (fun n => (n : F32))) (by decide)).1.trans
      (by decide)⟩

/-- C2, witness: of 60 recorded samples, the first 55 leave 50 in the history. -/
theorem history_length_after_55_of_60 :
    55 ≤ (List.replicate 60 (F32.ofDec 9 10)).length ∧
    (recordAll F32.sqrt [] ((List.replicate 60 (F32.ofDec 9 10)).take 55)).length = 50 :=
  ⟨by decide, (history_length_min F32.sqrt (List.replicate 60 (F32.ofDec 9 10)) 55 (by decide)).1⟩

/-- Over the reals, recording `1, 2, 3` into an empty history returns
`sqrt (2/3)` on the third call, which is not the sample standard deviation
`1`. -/
theorem drift_of_1_2_3_real :
    2 ≤ (calculate_semantic_drift Real.sqrt (recordAll Real.sqrt [] [1, 2]) 3).1.length ∧
    driftAfter Real.sqrt [] [1, 2] 3 = Real.sqrt (2 / 3) ∧
    Real.sqrt (2 / 3) ≠ 1 := by
  have hh : recordAll Real.sqrt [] [1, 2] = [1, 2] := by
    simp [recordAll, history_after_call, MAX_HISTORY]
  have hN : 2 ≤ (calculate_semantic_drift Real.sqrt (recordAll Real.sqrt [] [1, 2]) 3).1.length := by
    rw [hh]; simp [history_after_call, MAX_HISTORY]
  have h1 : (calculate_semantic_drift Real.sqrt (recordAll Real.sqrt [] [1, 2]) 3).1 = [1, 2, 3] := by
    rw [hh]; simp [history_after_call, MAX_HISTORY]
  refine ⟨hN, ?_, ?_⟩
  · unfold driftAfter
    rw [drift_is_population_std_dev Real.sqrt (recordAll Real.sqrt [] [1, 2]) 3 hN, h1]
    unfold populationStdDev
    norm_num
  · intro h
    rw [Real.sqrt_eq_one] at h
    norm_num at h

/-- C3, witness: in binary32, recording `1.0f, 2.0f, 3.0f` returns on the third
call the value of the formula, `13698540 * 2^-24` (0.81649661…): the sum `6`,
the mean `2` and the sum of squares `2` are exact, `2/3` and its square root
are rounded.  The result is within `2^-24` of `sqrt (2/3)`, since `2/3` lies
between the squares of its two neighbours, and it is not `1.0f`. -/
theorem drift_of_1_2_3_binary32 :
    2 ≤ (calculate_semantic_drift F32.sqrt
      (recordAll F32.sqrt [] [((1 : Nat) : F32), ((2 : Nat) : F32)]) ((3 : Nat) : F32)).1.length ∧
    driftAfter F32.sqrt [] [((1 : Nat) : F32), ((2 : Nat) : F32)] ((3 : Nat) : F32)
      = Fp.fin false 13698540 (-24) ∧
    ((13698539 : ℚ) / 2 ^ 24) ^ 2 < 2 / 3 ∧ (2 / 3 : ℚ) < ((13698541 : ℚ) / 2 ^ 24) ^ 2 ∧
    driftAfter F32.sqrt [] [((1 : Nat) : F32), ((2 : Nat) : F32)] ((3 : Nat) : F32)
      ≠ ((1 : Nat) : F32) := by
  refine ⟨by decide, ?_, by norm_num, by norm_num, by decide⟩
  unfold driftAfter
  exact (drift_is_std_dev_formula F32.sqrt _ _ (by decide)).1.trans (by decide)

/-- C3, as stated, fails in binary32: the value returned is not the population
standard deviation of the history.  With `0.9f` recorded three times the
history is `[0.9f, 0.9f, 0.9f]`, whose population standard deviation is `0`,
and the call returns `2^-24`; with the largest `float` recorded twice the sum
overflows and the call returns `+∞`; with `1.0f, 2.0f, 3.0f` the call returns
`13698540 * 2^-24`, whose square is not `2/3`. -/
theorem drift_is_not_the_exact_std_dev_binary32 :
    (calculate_semantic_drift F32.sqrt [F32.ofDec 9 10, F32.ofDec 9 10] (F32.ofDec 9 10)
      = ([F32.ofDec 9 10, F32.ofDec 9 10, F32.ofDec 9 10], Fp.fin false 8388608 (-47))) ∧
    Fp.toRat (Fp.fin false 8388608 (-47)) = 1 / 2 ^ 24 ∧
    populationStdDev Real.sqrt
      ([F32.ofDec 9 10, F32.ofDec 9 10, F32.ofDec 9 10].map
        (fun x => ((Fp.toRat x : ℚ) : ℝ))) = 0 ∧
    (calculate_semantic_drift F32.sqrt [Fp.fin false 16777215 104] (Fp.fin false 16777215 104)
      = ([Fp.fin false 16777215 104, Fp.fin false 16777215 104], Fp.inf false)) ∧
    (calculate_semantic_drift F32.sqrt [((1 : Nat) : F32), ((2 : Nat) : F32)] ((3 : Nat) : F32)).2
      = Fp.fin false 13698540 (-24) ∧
    ((13698540 : ℚ) / 2 ^ 24) ^ 2 ≠ 2 / 3 := by
  refine ⟨by decide, by norm_num [Fp.toRat], ?_, by decide, by decide, by norm_num⟩
  rw [populationStdDev_const Real.sqrt ((Fp.toRat (F32.ofDec 9 10) : ℚ) : ℝ) _ (by simp)
    (by simp), Real.sqrt_zero]

/-- C4, as stated, fails in binary32 at `c = 0.9f`, recorded three times in a
row into an empty history: the third call returns `2^-24` (stored as
`2^23 * 2^-47`), not `0`.  Step by step: `0.9f` is `15099494 * 2^-24`;
`0.9f + 0.9f` is exact; adding `0.9f` again gives `45298482 * 2^-24`, half-way
between two floats, rounded to the even one, `11324620 * 2^-22`; divided by `3`
this gives the mean `15099493 * 2^-24`, one unit in the last place below
`0.9f`; each deviation is `2^-24`, each square `2^-48`. -/
theorem constant_samples_nonzero_drift_binary32 :
    F32.ofDec 9 10 = Fp.fin false 15099494 (-24) ∧
    (0 : F32) + F32.ofDec 9 10 + F32.ofDec 9 10 = Fp.fin false 15099494 (-23) ∧
    (0 : F32) + F32.ofDec 9 10 + F32.ofDec 9 10 + F32.ofDec 9 10
      = Fp.fin false 11324620 (-22) ∧
    ((0 : F32) + F32.ofDec 9 10 + F32.ofDec 9 10 + F32.ofDec 9 10) / ((3 : Nat) : F32)
      = Fp.fin false 15099493 (-24) ∧
    F32.ofDec 9 10 -
        ((0 : F32) + F32.ofDec 9 10 + F32.ofDec 9 10 + F32.ofDec 9 10) / ((3 : Nat) : F32)
      = Fp.fin false 8388608 (-47) ∧
    driftAfter F32.sqrt [] (List.replicate 2 (F32.ofDec 9 10)) (F32.ofDec 9 10)
      = Fp.fin false 8388608 (-47) ∧
    driftAfter F32.sqrt [] (List.replicate 2 (F32.ofDec 9 10)) (F32.ofDec 9 10) ≠ 0 := by
  decide

/-- The scores `main` generates at the ends of the range of `rand()`, for the
two usual values of `RAND_MAX`: `0.75f` and `0.95f`. -/
theorem simulated_v_score_endpoints :
    simulated_v_score 2147483647 0 = F32.ofDec 3 4 ∧
    simulated_v_score 2147483647 2147483647 = F32.ofDec 19 20 ∧
    simulated_v_score 32767 0 = F32.ofDec 3 4 ∧
    simulated_v_score 32767 32767 = F32.ofDec 19 20 ∧
    F32.ofDec 3 4 = Fp.fin false 12582912 (-24) ∧
    F32.ofDec 19 20 = Fp.fin false 15938355 (-24) := by
  decide

/-- C4, witness: `0.9f` lies below `2^127`, and recording it a second time
returns exactly `+0` (it is the third call that returns `2^-24`). -/
theorem second_call_of_09_is_zero :
    F32.isBinary32 (F32.ofDec 9 10) = true ∧ Fp.isFinite (F32.ofDec 9 10) = true ∧
    |Fp.toRat (F32.ofDec 9 10)| < 2 ^ 127 ∧
    driftAfter F32.sqrt [] [F32.ofDec 9 10] (F32.ofDec 9 10) = 0 := by
  have h : |Fp.toRat (F32.ofDec 9 10)| < 2 ^ 127 := by
    have h09 : F32.ofDec 9 10 = Fp.fin false 15099494 (-24) := by decide
    rw [h09, Fp.abs_toRat_fin]
    norm_num
  exact ⟨by decide, by decide, h,
    constant_samples_zero_drift.2.2.1 _ (by decide) (by decide) h⟩

/-- The literals are rounded to the nearest value of their format: `0.85f`
lies above `0.85` and nearer to it than the `float` below it; `0.9f` lies
below `0.9` and nearer to it than the `float` above it; the `double` `0.85`
lies below `0.85` and nearer to it than the `double` above it. -/
theorem literals_are_nearest :
    (17 / 20 < Fp.toRat (F32.ofDec 17 20) ∧
      Fp.toRat (F32.ofDec 17 20) - 17 / 20 < 17 / 20 - Fp.toRat (Fp.fin false 14260633 (-24))) ∧
    (Fp.toRat (F32.ofDec 9 10) < 9 / 10 ∧
      9 / 10 - Fp.toRat (F32.ofDec 9 10) < Fp.toRat (Fp.fin false 15099495 (-24)) - 9 / 10) ∧
    (Fp.toRat (F64.ofDec 17 20) < 17 / 20 ∧
      17 / 20 - Fp.toRat (F64.ofDec 17 20)
        < Fp.toRat (Fp.fin false 7656119366529844 (-53)) - 17 / 20) := by
  have h1 : F32.ofDec 17 20 = Fp.fin false 14260634 (-24) := by decide
  have h2 : F32.ofDec 9 10 = Fp.fin false 15099494 (-24) := by decide
  rw [h1, h2, F64.ofDec_17_20]
  norm_num [Fp.toRat]

/-- C10, witness: the history `0.75, 0.95` reaches the bound `0.1`. -/
theorem drift_bounds_real_example :
    (∀ x ∈ [(3 / 4 : ℝ)] ++ [19 / 20], 3 / 4 ≤ x ∧ x ≤ 19 / 20) ∧
    (calculate_semantic_drift Real.sqrt [3 / 4] (19 / 20)).2 ≤ 1 / 10 := by
  have hb : ∀ x ∈ [(3 / 4 : ℝ)] ++ [19 / 20], 3 / 4 ≤ x ∧ x ≤ 19 / 20 := by
    intro x hx
    simp only [List.singleton_append, List.mem_cons, List.mem_singleton, List.not_mem_nil,
      or_false] at hx
    rcases hx with rfl | rfl <;> norm_num
  exact ⟨hb, (drift_bounds_real [3 / 4] (19 / 20)).2.2 hb⟩

end QCOS
